import Mathlib

/-
Verification development for the field extraction core of the
Insurance-Document-Parser repository: the confidence scorer
(src/scorer.py, class ConfidenceScorer) and the field extraction engine
(src/extractor.py, class FieldExtractor).

Modelling conventions:
  * Python floats are modelled as rationals; Python round(x, 2) is modelled
    as rounding x*100 to the nearest integer (halves away from zero, the
    standard Mathlib round) divided by 100.
  * The compiled deterministic pattern of a field is modelled semantically
    as a function from the input text to the optional list of group
    captures of the first match (re.search with IGNORECASE and MULTILINE);
    a group that did not take part in the match is a none entry, mirroring
    the Python group value None.
  * The similarity ratio of the rapidfuzz library (fuzz partial ratio) is
    an external collaborator and is passed in as a function parameter sim.
  * The numeric token pattern that is hard coded in the fuzzy fallback is
    implemented concretely below (findNumbers).
-/

namespace ConfidenceScorer

/-- Model of the Python expression round(x, 2) on rationals. -/
def pyRound2 (x : ℚ) : ℚ := (round (x * 100) : ℤ) / 100

/-- ConfidenceScorer.calculate from src/scorer.py. The Python method has a
default argument match_quality = 100.0; call sites that omit the argument
pass 100 explicitly in this model. -/
def calculate (method : String) (match_quality : ℚ) : ℚ :=
  if method = "regex" then 95 / 100
  else if method = "fuzzy" then pyRound2 (match_quality / 100 * (85 / 100))
  else 0

theorem pyRound2_mono {x y : ℚ} (h : x ≤ y) : pyRound2 x ≤ pyRound2 y := by
  unfold pyRound2
  have hr : round (x * 100) ≤ round (y * 100) := by
    rw [round_eq, round_eq]
    exact Int.floor_le_floor (by linarith)
  have hc : ((round (x * 100) : ℤ) : ℚ) ≤ ((round (y * 100) : ℤ) : ℚ) :=
    Int.cast_le.mpr hr
  linarith

theorem calculate_fuzzy_mono {q1 q2 : ℚ} (h : q1 ≤ q2) :
    calculate "fuzzy" q1 ≤ calculate "fuzzy" q2 := by
  unfold calculate
  simp only [if_neg (by decide : ¬ ("fuzzy" : String) = "regex"), if_pos rfl]
  exact pyRound2_mono (by linarith)

end ConfidenceScorer

namespace FieldExtractor

/-- Token characters of the character class that combines digits and the
comma in the numeric token pattern of the fuzzy fallback. -/
def isTokChar (c : Char) : Bool := c.isDigit || c = ','

/-- One numeric token at the current position: one or more digits or commas,
then an optional dot followed by further digits. Returns the token together
with the remaining characters, or none when no digit or comma starts here. -/
def numToken (cs : List Char) : Option (String × List Char) :=
  match cs.span isTokChar with
  | ([], _) => none
  | (run, rest) =>
    match rest with
    | '.' :: rest2 =>
      match rest2.span Char.isDigit with
      | (ds, rest3) => some (String.mk (run ++ '.' :: ds), rest3)
    | _ => some (String.mk run, rest)

/-- Optional currency marker of the numeric token pattern. The source file
stores the intended rupee sign as three characters (U+00E2, U+201A, U+00B9),
the UTF-8 bytes of the rupee sign decoded through cp1252, so the running
pattern looks for exactly that three character sequence, or for "Rs.". -/
def dropCurrency (cs : List Char) : List Char :=
  match cs with
  | 'R' :: 's' :: '.' :: rest => rest
  | c1 :: c2 :: c3 :: rest =>
    if c1 = Char.ofNat 0xE2 ∧ c2 = Char.ofNat 0x201A ∧ c3 = Char.ofNat 0xB9 then rest
    else c1 :: c2 :: c3 :: rest
  | _ => cs

/-- The optional single whitespace of the numeric token pattern. -/
def skipOneWs (cs : List Char) : List Char :=
  match cs with
  | c :: rest => if c.isWhitespace then rest else c :: rest
  | [] => []

/-- Scanner behind findNumbers. At every position it tries the numeric token
pattern (optional currency marker, optional single whitespace, then the
captured token); on success it emits the capture and resumes after the
match, otherwise it advances one character. The fuel argument starts at the
length of the list and bounds the recursion. -/
def findNumbersAux : Nat → List Char → List String
  | 0, _ => []
  | _, [] => []
  | Nat.succ fuel, c :: cs =>
    match numToken (skipOneWs (dropCurrency (c :: cs))) with
    | some (tok, rest) => tok :: findNumbersAux fuel rest
    | none => findNumbersAux fuel cs

/-- Model of the Python call re.findall of the numeric token pattern on one
line, returning the group captures of all matches from left to right. -/
def findNumbers (line : String) : List String :=
  findNumbersAux line.data.length line.data

/-- The list comprehension that keeps only tokens that are nonempty after
stripping and contain at least one digit. -/
def validValues (line : String) : List String :=
  (findNumbers line).filter (fun n => !(n.trim == "") && n.data.any Char.isDigit)

/-- One extraction result, the per field dictionary built by extract with
keys value, confidence and method. A Python value of None is the none case
of the value field. -/
structure ExtractionResult where
  value : Option String
  confidence : ℚ
  method : String
deriving DecidableEq, Repr

/-- Python truthiness of the value entry: None and the empty string are
falsy, every other string is truthy. -/
def pyTruthy : Option String → Bool
  | none => false
  | some s => !(s == "")

/-- The mutable best candidate bookkeeping of the fuzzy scan: the variables
best_candidate, best_score and best_method_score. -/
structure FuzzyState where
  best_candidate : Option String
  best_score : ℚ
  best_method_score : ℚ
deriving DecidableEq, Repr

/-- Initial values of the fuzzy scan: best_candidate None, best_score 0,
best_method_score 0. -/
def initState : FuzzyState := ⟨none, 0, 0⟩

/-- The body of the inner keyword loop of _fuzzy_search for one keyword on
one line. The similarity ratio of the rapidfuzz library is the parameter
sim, applied to the lowercased keyword and the lowercased line. -/
def fuzzyKeywordStep (sim : String → String → ℚ) (line : String)
    (st : FuzzyState) (keyword : String) : FuzzyState :=
  let score := sim keyword.toLower line.toLower
  if 85 ≤ score then
    let valid := validValues line
    if valid.isEmpty then st
    else
      let confidence := ConfidenceScorer.calculate "fuzzy" score
      if st.best_score < confidence then
        { best_candidate := valid.getLast?, best_score := confidence,
          best_method_score := score }
      else st
  else st

/-- The body of the outer line loop of _fuzzy_search: lines that are empty
after stripping are skipped, otherwise every keyword is tried on the line. -/
def fuzzyLineStep (sim : String → String → ℚ) (keywords : List String)
    (st : FuzzyState) (line : String) : FuzzyState :=
  if line.trim = "" then st
  else keywords.foldl (fuzzyKeywordStep sim line) st

/-- The state after both loops of _fuzzy_search have run. -/
def finalState (sim : String → String → ℚ) (lines keywords : List String) :
    FuzzyState :=
  lines.foldl (fuzzyLineStep sim keywords) initState

/-- FieldExtractor._fuzzy_search from src/extractor.py: scans all lines and
keywords, keeps the best candidate, and returns it as a result dictionary
whose method entry records the raw similarity score, or None when the final
best candidate is falsy. -/
def fuzzy_search (sim : String → String → ℚ) (lines keywords : List String) :
    Option ExtractionResult :=
  let final := finalState sim lines keywords
  if pyTruthy final.best_candidate then
    some ⟨final.best_candidate, final.best_score,
      "fuzzy (score: " ++ toString final.best_method_score ++ ")"⟩
  else none

/-- Specification side view of one (line, keyword) pair of the fuzzy scan:
the candidate the pair contributes, as value, confidence and similarity
score, or none when the pair is rejected by the threshold of 85 or the line
has no valid numeric token. -/
def pairCandidate (sim : String → String → ℚ) (line keyword : String) :
    Option (String × ℚ × ℚ) :=
  let score := sim keyword.toLower line.toLower
  if 85 ≤ score then
    match (validValues line).getLast? with
    | some v => some (v, ConfidenceScorer.calculate "fuzzy" score, score)
    | none => none
  else none

/-- All candidates of the fuzzy scan in encounter order: lines outside,
keywords inside, lines that are empty after stripping skipped. -/
def candidateList (sim : String → String → ℚ) (keywords : List String) :
    List String → List (String × ℚ × ℚ)
  | [] => []
  | line :: rest =>
    if line.trim = "" then candidateList sim keywords rest
    else keywords.filterMap (pairCandidate sim line) ++ candidateList sim keywords rest

/-- One arbitration step on a candidate: replace the stored best exactly on
strictly greater confidence. -/
def pick (st : FuzzyState) (c : String × ℚ × ℚ) : FuzzyState :=
  if st.best_score < c.2.1 then ⟨some c.1, c.2.1, c.2.2⟩ else st

/-- One field configuration from the pattern registry. The compiled
deterministic pattern is modelled semantically: regex applied to the input
text returns the group captures of the first match of the configured
pattern under re.search with IGNORECASE and MULTILINE, none when there is
no match; a group that did not take part in the match is a none entry,
mirroring the Python group value None. -/
structure PatternConfig where
  regex : String → Option (List (Option String))
  keywords : List String

/-- The two runtime errors the engine can raise while processing a field:
indexError models the IndexError of match.groups()[-1] when the pattern has
zero capturing groups, attributeError models the AttributeError of calling
strip() on the None of a group that did not take part in the match. -/
inductive ExtractErr where
  | indexError
  | attributeError
deriving DecidableEq, Repr

instance {ε α : Type} [DecidableEq ε] [DecidableEq α] : DecidableEq (Except ε α) := fun a b =>
  match a, b with
  | .error e, .error f =>
    if h : e = f then .isTrue (by rw [h]) else .isFalse (by intro c; cases c; exact h rfl)
  | .ok x, .ok y =>
    if h : x = y then .isTrue (by rw [h]) else .isFalse (by intro c; cases c; exact h rfl)
  | .error _, .ok _ => .isFalse (by intro c; cases c)
  | .ok _, .error _ => .isFalse (by intro c; cases c)

/-- The loop body of FieldExtractor.extract for one field: the deterministic
attempt (strategy 1) followed by the fuzzy fallback (strategy 2) when the
value so far is falsy. -/
def extractField (sim : String → String → ℚ) (text : String)
    (lines : List String) (config : PatternConfig) :
    Except ExtractErr ExtractionResult :=
  let step1 : Except ExtractErr ExtractionResult :=
    match config.regex text with
    | none => .ok ⟨none, 0, "none"⟩
    | some groups =>
      match groups.getLast? with
      | none => .error .indexError
      | some none => .error .attributeError
      | some (some g) =>
        .ok ⟨some g.trim, ConfidenceScorer.calculate "regex" 100, "regex"⟩
  match step1 with
  | .error e => .error e
  | .ok extracted =>
    if pyTruthy extracted.value then .ok extracted
    else
      match fuzzy_search sim lines config.keywords with
      | some f => .ok f
      | none => .ok extracted

/-- The field loop of FieldExtractor.extract: one result per configured
field in registry order; a raised error aborts the whole call. -/
def extractFields (sim : String → String → ℚ) (text : String)
    (lines : List String) :
    List (String × PatternConfig) →
      Except ExtractErr (List (String × ExtractionResult))
  | [] => .ok []
  | p :: rest =>
    match extractField sim text lines p.2 with
    | .error e => .error e
    | .ok r =>
      match extractFields sim text lines rest with
      | .error e => .error e
      | .ok rs => .ok ((p.1, r) :: rs)

/-- FieldExtractor.extract from src/extractor.py: splits the text into
lines once and processes every configured field. -/
def extract (sim : String → String → ℚ)
    (patterns : List (String × PatternConfig)) (text : String) :
    Except ExtractErr (List (String × ExtractionResult)) :=
  extractFields sim text (text.splitOn "\n") patterns

/-- Semantic model of a compiled deterministic pattern whose last capturing
group is optional, concretely the pattern (Premium)(:)? : re.search finds
the first occurrence of Premium in the text; group 1 is that occurrence and
group 2 takes part in the match only when a colon follows directly,
otherwise its captured value is None. -/
def searchPremiumOptColon : List Char → Option (List (Option String))
  | 'P' :: 'r' :: 'e' :: 'm' :: 'i' :: 'u' :: 'm' :: rest =>
    match rest with
    | ':' :: _ => some [some "Premium", some ":"]
    | _ => some [some "Premium", none]
  | _ :: rest => searchPremiumOptColon rest
  | [] => none

end FieldExtractor

section Claims

open FieldExtractor ConfidenceScorer

theorem extractFields_keys (sim : String → String → ℚ) (text : String)
    (lines : List String) :
    ∀ (ps : List (String × PatternConfig)) (res : List (String × ExtractionResult)),
      extractFields sim text lines ps = .ok res →
      res.map Prod.fst = ps.map Prod.fst := by
  intro ps
  induction ps with
  | nil =>
    intro res h
    simp only [extractFields] at h
    cases h
    rfl
  | cons p rest ih =>
    intro res h
    simp only [extractFields] at h
    cases hf : extractField sim text lines p.2 with
    | error e => rw [hf] at h; exact absurd h (by simp)
    | ok r =>
      rw [hf] at h
      cases hr : extractFields sim text lines rest with
      | error e => rw [hr] at h; exact absurd h (by simp)
      | ok rs =>
        rw [hr] at h
        cases h
        simp only [List.map_cons]
        rw [ih rs hr]

/-- C1: whenever extract returns a result mapping, that mapping has exactly
the keys of the pattern registry in registry order, so every declared field
appears, and for a registry with distinct field names every field appears
exactly once, for any input text including the empty text. -/
theorem C1_one_entry_per_field (sim : String → String → ℚ)
    (patterns : List (String × PatternConfig)) (text : String)
    (res : List (String × ExtractionResult))
    (h : extract sim patterns text = .ok res) :
    res.map Prod.fst = patterns.map Prod.fst ∧
    ((patterns.map Prod.fst).Nodup →
      ∀ f ∈ patterns.map Prod.fst, (res.map Prod.fst).count f = 1) := by
  have hk := extractFields_keys sim text (text.splitOn "\n") patterns res h
  refine ⟨hk, fun hn f hf => ?_⟩
  rw [hk]
  exact List.count_eq_one_of_mem hn hf

/-- Witness for C1 on a concrete two field registry and empty text: both
fields are declared, nothing matches, and the returned mapping still has
exactly one entry per field. -/
theorem C1_one_entry_per_field_witness :
    (extract (fun _ _ => 0)
        [("policy_number", ⟨fun _ => none, ["Policy"]⟩),
         ("premium", ⟨fun _ => none, ["Premium"]⟩)] "" =
      .ok [("policy_number", ⟨none, 0, "none"⟩), ("premium", ⟨none, 0, "none"⟩)]) ∧
    ([("policy_number", ⟨none, 0, "none"⟩),
      ("premium", (⟨none, 0, "none"⟩ : ExtractionResult))].map Prod.fst =
        ["policy_number", "premium"]) ∧
    (∀ f ∈ ["policy_number", "premium"],
      ([("policy_number", ⟨none, 0, "none"⟩),
        ("premium", (⟨none, 0, "none"⟩ : ExtractionResult))].map Prod.fst).count f = 1) := by
  have h : extract (fun _ _ => (0 : ℚ))
      [("policy_number", ⟨fun _ => none, ["Policy"]⟩),
       ("premium", ⟨fun _ => none, ["Premium"]⟩)] "" =
      .ok [("policy_number", ⟨none, 0, "none"⟩), ("premium", ⟨none, 0, "none"⟩)] := by
    with_unfolding_all decide
  have hc := C1_one_entry_per_field (fun _ _ => 0)
    [("policy_number", ⟨fun _ => none, ["Policy"]⟩),
     ("premium", ⟨fun _ => none, ["Premium"]⟩)] "" _ h
  refine ⟨h, hc.1, ?_⟩
  intro f hf
  exact hc.2 (by decide) f (by simpa using hf)

/-- C2: the confidence model returns the fixed constant 0.95 for the regex
method regardless of quality, returns round(q / 100 * 0.85, 2) for the
fuzzy method — hence 0.85 at quality 100, 0 at quality 0, and is
monotonically non-decreasing in the quality — and returns 0 for every
other method string. As a Lean function it is pure and deterministic. -/
theorem C2_calculate_spec :
    (∀ q : ℚ, calculate "regex" q = 95 / 100) ∧
    (∀ q : ℚ, calculate "fuzzy" q = pyRound2 (q / 100 * (85 / 100))) ∧
    calculate "fuzzy" 100 = 85 / 100 ∧
    calculate "fuzzy" 0 = 0 ∧
    (∀ q1 q2 : ℚ, q1 ≤ q2 → calculate "fuzzy" q1 ≤ calculate "fuzzy" q2) ∧
    (∀ (m : String) (q : ℚ), m ≠ "regex" → m ≠ "fuzzy" → calculate m q = 0) := by
  refine ⟨fun q => rfl, fun q => rfl, ?_, ?_, fun q1 q2 h => calculate_fuzzy_mono h, ?_⟩
  · with_unfolding_all decide
  · with_unfolding_all decide
  · intro m q hm hf
    simp [calculate, hm, hf]

/-- Witness for C2: monotonicity applied at qualities 90 and 100, and the
default branch applied at the method string none. -/
theorem C2_calculate_spec_witness :
    calculate "fuzzy" 90 ≤ calculate "fuzzy" 100 ∧ calculate "none" 50 = 0 :=
  ⟨C2_calculate_spec.2.2.2.2.1 90 100 (by norm_num),
   C2_calculate_spec.2.2.2.2.2 "none" 50 (by decide) (by decide)⟩

theorem foldl_preserve {α β : Type} (P : α → Prop) (step : α → β → α)
    (l : List β) (init : α) (h0 : P init) (hstep : ∀ a b, P a → P (step a b)) :
    P (l.foldl step init) := by
  induction l generalizing init with
  | nil => exact h0
  | cons x xs ih => exact ih (step init x) (hstep init x h0)

theorem fuzzyLineStep_no_keywords (sim : String → String → ℚ)
    (st : FuzzyState) (line : String) : fuzzyLineStep sim [] st line = st := by
  unfold fuzzyLineStep
  split <;> rfl

theorem fuzzy_search_no_keywords (sim : String → String → ℚ)
    (lines : List String) : fuzzy_search sim lines [] = none := by
  have h : finalState sim lines [] = initState := by
    have := foldl_preserve (fun st => st = initState) (fuzzyLineStep sim [])
      lines initState rfl (fun a b ha => by rw [fuzzyLineStep_no_keywords, ha])
    exact this
  unfold fuzzy_search
  rw [h]
  rfl

theorem fuzzyKeywordStep_eq_pick (sim : String → String → ℚ) (line : String)
    (st : FuzzyState) (kw : String) :
    fuzzyKeywordStep sim line st kw =
      match pairCandidate sim line kw with
      | none => st
      | some c => pick st c := by
  by_cases hs : 85 ≤ sim kw.toLower line.toLower
  · cases hv : (validValues line).getLast? with
    | none =>
      have hemp : validValues line = [] := List.getLast?_eq_none_iff.mp hv
      simp [fuzzyKeywordStep, pairCandidate, hs, hemp, hv]
    | some v =>
      have hemp : (validValues line).isEmpty = false := by
        cases hvv : validValues line with
        | nil => rw [hvv] at hv; simp at hv
        | cons a l => simp
      simp [fuzzyKeywordStep, pairCandidate, pick, hs, hemp, hv]
  · simp [fuzzyKeywordStep, pairCandidate, hs]

theorem keywordFold_eq_pickFold (sim : String → String → ℚ) (line : String)
    (kws : List String) :
    ∀ st : FuzzyState, kws.foldl (fuzzyKeywordStep sim line) st =
      (kws.filterMap (pairCandidate sim line)).foldl pick st := by
  induction kws with
  | nil => intro st; rfl
  | cons k ks ih =>
    intro st
    rw [List.foldl_cons, fuzzyKeywordStep_eq_pick]
    cases hp : pairCandidate sim line k with
    | none =>
      rw [List.filterMap_cons_none hp]
      exact ih st
    | some c =>
      rw [List.filterMap_cons_some hp, List.foldl_cons]
      exact ih (pick st c)

theorem linesFold_eq_pickFold (sim : String → String → ℚ)
    (keywords : List String) (lines : List String) :
    ∀ st : FuzzyState, lines.foldl (fuzzyLineStep sim keywords) st =
      (candidateList sim keywords lines).foldl pick st := by
  induction lines with
  | nil => intro st; rfl
  | cons l ls ih =>
    intro st
    rw [List.foldl_cons]
    by_cases hb : l.trim = ""
    · rw [candidateList, if_pos hb]
      have hstep : fuzzyLineStep sim keywords st l = st := by
        unfold fuzzyLineStep; rw [if_pos hb]
      rw [hstep]
      exact ih st
    · rw [candidateList, if_neg hb]
      have hstep : fuzzyLineStep sim keywords st l =
          (keywords.filterMap (pairCandidate sim l)).foldl pick st := by
        unfold fuzzyLineStep
        rw [if_neg hb, keywordFold_eq_pickFold]
      rw [hstep, List.foldl_append]
      exact ih _

theorem finalState_eq_pickFold (sim : String → String → ℚ)
    (lines keywords : List String) :
    finalState sim lines keywords =
      (candidateList sim keywords lines).foldl pick initState :=
  linesFold_eq_pickFold sim keywords lines initState

theorem calculate_fuzzy_85 : ConfidenceScorer.calculate "fuzzy" 85 = 72 / 100 := by
  with_unfolding_all decide

theorem calculate_fuzzy_100 : ConfidenceScorer.calculate "fuzzy" 100 = 85 / 100 := by
  with_unfolding_all decide

theorem pairCandidate_facts (sim : String → String → ℚ) (line kw : String)
    (c : String × ℚ × ℚ) (h : pairCandidate sim line kw = some c) :
    c.1 ≠ "" ∧ 85 ≤ c.2.2 ∧
    c.2.1 = ConfidenceScorer.calculate "fuzzy" c.2.2 ∧
    c.2.2 = sim kw.toLower line.toLower ∧ 72 / 100 ≤ c.2.1 := by
  unfold pairCandidate at h
  by_cases hs : 85 ≤ sim kw.toLower line.toLower
  · rw [if_pos hs] at h
    cases hv : (validValues line).getLast? with
    | none => rw [hv] at h; cases h
    | some v =>
      rw [hv] at h
      cases h
      have hvmem : v ∈ validValues line := List.mem_of_getLast?_eq_some hv
      have hvp := (List.mem_filter.mp hvmem).2
      have hvne : v ≠ "" := by
        intro hveq
        rw [hveq] at hvp
        simp at hvp
      have h72 : 72 / 100 ≤ ConfidenceScorer.calculate "fuzzy"
          (sim kw.toLower line.toLower) := by
        rw [← calculate_fuzzy_85]
        exact ConfidenceScorer.calculate_fuzzy_mono hs
      exact ⟨hvne, hs, rfl, rfl, h72⟩
  · rw [if_neg hs] at h
    cases h

theorem candidateList_facts (sim : String → String → ℚ)
    (keywords : List String) :
    ∀ (lines : List String), ∀ c ∈ candidateList sim keywords lines,
      c.1 ≠ "" ∧ 85 ≤ c.2.2 ∧
      c.2.1 = ConfidenceScorer.calculate "fuzzy" c.2.2 ∧
      (∃ (l k : String), c.2.2 = sim k.toLower l.toLower) ∧ 72 / 100 ≤ c.2.1 := by
  intro lines
  induction lines with
  | nil => intro c hc; simp [candidateList] at hc
  | cons l ls ih =>
    intro c hc
    unfold candidateList at hc
    by_cases hb : l.trim = ""
    · rw [if_pos hb] at hc
      exact ih c hc
    · rw [if_neg hb] at hc
      rcases List.mem_append.mp hc with h1 | h2
      · rcases List.mem_filterMap.mp h1 with ⟨kw2, _, hp⟩
        obtain ⟨hf1, hf2, hf3, hf4, hf5⟩ := pairCandidate_facts sim l kw2 c hp
        exact ⟨hf1, hf2, hf3, ⟨l, kw2, hf4⟩, hf5⟩
      · exact ih c h2

theorem foldl_pick_spec :
    ∀ (cs : List (String × ℚ × ℚ)) (st : FuzzyState),
      (cs.foldl pick st = st ∧ ∀ d ∈ cs, d.2.1 ≤ st.best_score) ∨
      (∃ pre c post, cs = pre ++ c :: post ∧
        cs.foldl pick st = ⟨some c.1, c.2.1, c.2.2⟩ ∧
        st.best_score < c.2.1 ∧
        (∀ d ∈ pre, d.2.1 < c.2.1) ∧ (∀ d ∈ post, d.2.1 ≤ c.2.1)) := by
  intro cs
  induction cs with
  | nil => intro st; left; exact ⟨rfl, by simp⟩
  | cons a tl ih =>
    intro st
    rw [List.foldl_cons]
    by_cases h : st.best_score < a.2.1
    · have hstep : pick st a = ⟨some a.1, a.2.1, a.2.2⟩ := by
        unfold pick; rw [if_pos h]
      rw [hstep]
      rcases ih ⟨some a.1, a.2.1, a.2.2⟩ with ⟨heq, hall⟩ |
        ⟨pre, c, post, hsp, heq, hlt, hpre, hpost⟩
      · right
        exact ⟨[], a, tl, by simp, heq, h, by simp, fun d hd => hall d hd⟩
      · right
        refine ⟨a :: pre, c, post, by simp [hsp], heq, lt_trans h hlt, ?_, hpost⟩
        intro d hd
        rcases List.mem_cons.mp hd with rfl | hd2
        · exact hlt
        · exact hpre d hd2
    · have hstep : pick st a = st := by unfold pick; rw [if_neg h]
      rw [hstep]
      rcases ih st with ⟨heq, hall⟩ | ⟨pre, c, post, hsp, heq, hlt, hpre, hpost⟩
      · left
        refine ⟨heq, ?_⟩
        intro d hd
        rcases List.mem_cons.mp hd with rfl | hd2
        · exact le_of_not_lt h
        · exact hall d hd2
      · right
        refine ⟨a :: pre, c, post, by simp [hsp], heq, hlt, ?_, hpost⟩
        intro d hd
        rcases List.mem_cons.mp hd with rfl | hd2
        · exact lt_of_le_of_lt (le_of_not_lt h) hlt
        · exact hpre d hd2

theorem finalState_cases (sim : String → String → ℚ)
    (lines keywords : List String) :
    finalState sim lines keywords = initState ∨
    ∃ c ∈ candidateList sim keywords lines,
      finalState sim lines keywords = ⟨some c.1, c.2.1, c.2.2⟩ := by
  rw [finalState_eq_pickFold]
  rcases foldl_pick_spec (candidateList sim keywords lines) initState with
    ⟨heq, _⟩ | ⟨pre, c, post, hsp, heq, _, _, _⟩
  · left; exact heq
  · right
    exact ⟨c, by rw [hsp]; exact List.mem_append_right _ (List.mem_cons_self _ _), heq⟩

theorem fuzzy_search_of_finalState (sim : String → String → ℚ)
    (lines keywords : List String) (c : String × ℚ × ℚ)
    (hfs : finalState sim lines keywords = ⟨some c.1, c.2.1, c.2.2⟩)
    (hne : c.1 ≠ "") :
    fuzzy_search sim lines keywords =
      some ⟨some c.1, c.2.1, "fuzzy (score: " ++ toString c.2.2 ++ ")"⟩ := by
  unfold fuzzy_search
  rw [hfs]
  simp [pyTruthy, hne]

theorem fuzzy_search_of_initState (sim : String → String → ℚ)
    (lines keywords : List String)
    (hfs : finalState sim lines keywords = initState) :
    fuzzy_search sim lines keywords = none := by
  unfold fuzzy_search
  rw [hfs]
  rfl

/-- C3 counterexample: a field whose deterministic pattern matches with a
capture that is empty after stripping, and whose approximate matcher finds
no candidate (empty keyword list), does not get the default entry: the
result keeps value empty string, confidence 0.95 and method regex. -/
theorem C3_counterexample :
    extract (fun _ _ => 0) [("premium", ⟨fun _ => some [some " "], []⟩)]
        "Premium:" = .ok [("premium", ⟨some "", 95 / 100, "regex"⟩)] ∧
    fuzzy_search (fun _ _ => (0 : ℚ)) ("Premium:".splitOn "\n") [] = none ∧
    (⟨some "", 95 / 100, "regex"⟩ : ExtractionResult) ≠ ⟨none, 0, "none"⟩ := by
  refine ⟨by with_unfolding_all decide, fuzzy_search_no_keywords _ _, by decide⟩

/-- C3 amended: when the approximate matcher yields no candidate, a field
whose deterministic pattern did not match gets exactly the default entry
(value absent, confidence 0, method none); but a field whose pattern
matched with a capture that is empty after stripping keeps the
deterministic entry: value the empty string, confidence 0.95, method
regex. -/
theorem C3_amended_default_result (sim : String → String → ℚ) (text : String)
    (lines : List String) (config : PatternConfig)
    (hf : fuzzy_search sim lines config.keywords = none) :
    (config.regex text = none →
      extractField sim text lines config = .ok ⟨none, 0, "none"⟩) ∧
    (∀ gs g, config.regex text = some gs → gs.getLast? = some (some g) →
      g.trim = "" →
      extractField sim text lines config = .ok ⟨some "", 95 / 100, "regex"⟩) := by
  constructor
  · intro hr
    unfold extractField
    rw [hr, hf]
    rfl
  · intro gs g hr hl ht
    unfold extractField
    rw [hr]
    dsimp only
    rw [hl]
    dsimp only
    rw [ht, hf]
    rfl

/-- Witness for C3 amended, on a field with no deterministic match and one
with an empty stripped capture, both with an empty keyword list. -/
theorem C3_amended_default_result_witness :
    extractField (fun _ _ => 0) "x" ["x"] ⟨fun _ => none, []⟩ =
      .ok ⟨none, 0, "none"⟩ ∧
    extractField (fun _ _ => 0) "x" ["x"] ⟨fun _ => some [some " "], []⟩ =
      .ok ⟨some "", 95 / 100, "regex"⟩ :=
  ⟨(C3_amended_default_result (fun _ _ => 0) "x" ["x"] ⟨fun _ => none, []⟩
      (fuzzy_search_no_keywords _ _)).1 rfl,
   (C3_amended_default_result (fun _ _ => 0) "x" ["x"] ⟨fun _ => some [some " "], []⟩
      (fuzzy_search_no_keywords _ _)).2 [some " "] " " rfl rfl
      (by with_unfolding_all decide)⟩

/-- C7: when the deterministic attempt produced no match, or produced a
match whose last group capture is empty after stripping, the engine falls
back to the approximate matcher on the document lines with the field
keyword list, and a candidate produced there becomes the field result in
place of the empty deterministic value. -/
theorem C7_fallback_uses_fuzzy (sim : String → String → ℚ) (text : String)
    (lines : List String) (config : PatternConfig) (f : ExtractionResult)
    (hf : fuzzy_search sim lines config.keywords = some f) :
    (config.regex text = none → extractField sim text lines config = .ok f) ∧
    (∀ gs g, config.regex text = some gs → gs.getLast? = some (some g) →
      g.trim = "" → extractField sim text lines config = .ok f) := by
  constructor
  · intro hr
    unfold extractField
    rw [hr, hf]
    rfl
  · intro gs g hr hl ht
    unfold extractField
    rw [hr]
    dsimp only
    rw [hl]
    dsimp only
    rw [ht, hf]
    rfl

/-- Witness for C7: a field with no deterministic match and a field whose
pattern captures only whitespace both end up with the fuzzy candidate. -/
theorem C7_fallback_uses_fuzzy_witness :
    fuzzy_search (fun _ _ => 100) ["Premium 100"] ["Premium"] =
      some ⟨some "100", 85 / 100, "fuzzy (score: 100)"⟩ ∧
    extractField (fun _ _ => 100) "Premium 100" ["Premium 100"]
        ⟨fun _ => none, ["Premium"]⟩ =
      .ok ⟨some "100", 85 / 100, "fuzzy (score: 100)"⟩ ∧
    extractField (fun _ _ => 100) "Premium 100" ["Premium 100"]
        ⟨fun _ => some [some " "], ["Premium"]⟩ =
      .ok ⟨some "100", 85 / 100, "fuzzy (score: 100)"⟩ := by
  have hf : fuzzy_search (fun _ _ => (100 : ℚ)) ["Premium 100"] ["Premium"] =
      some ⟨some "100", 85 / 100, "fuzzy (score: 100)"⟩ := by
    with_unfolding_all decide
  exact ⟨hf,
    (C7_fallback_uses_fuzzy (fun _ _ => 100) "Premium 100" ["Premium 100"]
      ⟨fun _ => none, ["Premium"]⟩ _ hf).1 rfl,
    (C7_fallback_uses_fuzzy (fun _ _ => 100) "Premium 100" ["Premium 100"]
      ⟨fun _ => some [some " "], ["Premium"]⟩ _ hf).2 [some " "] " " rfl rfl
      (by with_unfolding_all decide)⟩

/-- C8 counterexample: a field whose keyword list is empty while approximate
matching is attempted (the deterministic pattern found no match) does not
raise any error: extract silently returns the default entry for it. -/
theorem C8_counterexample :
    extract (fun _ _ => 100) [("premium", ⟨fun _ => none, []⟩)] "Premium 100" =
      .ok [("premium", ⟨none, 0, "none"⟩)] ∧
    ∀ e : ExtractErr,
      extract (fun _ _ => 100) [("premium", ⟨fun _ => none, []⟩)] "Premium 100" ≠
        .error e := by
  have h : extract (fun _ _ => (100 : ℚ)) [("premium", ⟨fun _ => none, []⟩)]
      "Premium 100" = .ok [("premium", ⟨none, 0, "none"⟩)] := by
    with_unfolding_all decide
  exact ⟨h, fun e he => by rw [h] at he; exact Except.noConfusion he⟩

/-- C8 amended: a deterministic pattern that matches while declaring zero
capturing groups raises the IndexError for that field, fail fast; but an
empty keyword list is not surfaced as an error where matching is attempted:
the approximate matcher simply returns no candidate, and a field with an
empty keyword list and no deterministic match silently gets the default
entry. -/
theorem C8_amended_config_errors (sim : String → String → ℚ) (text : String)
    (lines : List String) (config : PatternConfig) :
    (config.regex text = some [] →
      extractField sim text lines config = .error .indexError) ∧
    fuzzy_search sim lines [] = none ∧
    (config.keywords = [] → config.regex text = none →
      extractField sim text lines config = .ok ⟨none, 0, "none"⟩) := by
  refine ⟨?_, fuzzy_search_no_keywords sim lines, ?_⟩
  · intro hr
    unfold extractField
    rw [hr]
    rfl
  · intro hk hr
    unfold extractField
    rw [hr, hk, fuzzy_search_no_keywords sim lines]
    rfl

/-- Witness for C8 amended: a matching zero group pattern raises the
IndexError, and an empty keyword field with no match gets the default. -/
theorem C8_amended_config_errors_witness :
    extractField (fun _ _ => 100) "Premium 100" ["Premium 100"]
        ⟨fun _ => some [], ["Premium"]⟩ = .error .indexError ∧
    extractField (fun _ _ => 100) "Premium 100" ["Premium 100"]
        ⟨fun _ => none, []⟩ = .ok ⟨none, 0, "none"⟩ :=
  ⟨(C8_amended_config_errors (fun _ _ => 100) "Premium 100" ["Premium 100"]
      ⟨fun _ => some [], ["Premium"]⟩).1 rfl,
   (C8_amended_config_errors (fun _ _ => 100) "Premium 100" ["Premium 100"]
      ⟨fun _ => none, []⟩).2.2 rfl rfl⟩

/-- C10: extract is not total at the public interface: for the field spec
whose deterministic pattern is (Premium)(:)? and the text Premium due, the
pattern matches but its optional last group does not take part in the
match, the captured None is stripped as if it were a string, and extract
raises the AttributeError instead of returning a result mapping. -/
theorem C10_extract_not_total :
    extract (fun _ _ => 100)
      [("premium", ⟨fun t => searchPremiumOptColon t.data, ["Premium"]⟩)]
      "Premium due" = .error .attributeError := by
  with_unfolding_all decide

/-- C4: the fuzzy scan is one global arbitration over all line and keyword
pairs in encounter order: the returned candidate is the one whose
confidence is strictly greater than that of every candidate encountered
before it, and at most equal to it for every candidate encountered after
it, so on equal confidence the earliest encountered candidate is kept. -/
theorem C4_global_arbitration (sim : String → String → ℚ)
    (lines keywords : List String)
    (hne : candidateList sim keywords lines ≠ []) :
    ∃ pre c post, candidateList sim keywords lines = pre ++ c :: post ∧
      fuzzy_search sim lines keywords =
        some ⟨some c.1, c.2.1, "fuzzy (score: " ++ toString c.2.2 ++ ")"⟩ ∧
      (∀ d ∈ pre, d.2.1 < c.2.1) ∧ ∀ d ∈ post, d.2.1 ≤ c.2.1 := by
  rcases foldl_pick_spec (candidateList sim keywords lines) initState with
    ⟨heq, hall⟩ | ⟨pre, c, post, hsp, heq, hlt, hpre, hpost⟩
  · cases hc : candidateList sim keywords lines with
    | nil => exact absurd hc hne
    | cons c0 cs0 =>
      have hmem0 : c0 ∈ candidateList sim keywords lines := by
        rw [hc]; exact List.mem_cons_self _ _
      have h0 : c0.2.1 ≤ (0 : ℚ) := hall c0 hmem0
      have h72 := (candidateList_facts sim keywords lines c0 hmem0).2.2.2.2
      linarith
  · have hmem : c ∈ candidateList sim keywords lines := by
      rw [hsp]; exact List.mem_append_right _ (List.mem_cons_self _ _)
    have hfacts := candidateList_facts sim keywords lines c hmem
    have hfs : finalState sim lines keywords = ⟨some c.1, c.2.1, c.2.2⟩ := by
      rw [finalState_eq_pickFold]; exact heq
    exact ⟨pre, c, post, hsp,
      fuzzy_search_of_finalState sim lines keywords c hfs hfacts.1, hpre, hpost⟩

/-- Witness for C4, realising the spec scenario of two lines mentioning the
keyword with similarities 90 and 100: the value from the similarity 100
line is returned, since its confidence is strictly higher. -/
theorem C4_global_arbitration_witness :
    candidateList (fun _ l => if l = "sum assured 1" then (90 : ℚ) else 100)
        ["Sum Assured"] ["Sum Assured 1", "Sum Assured 2"] ≠ [] ∧
    fuzzy_search (fun _ l => if l = "sum assured 1" then (90 : ℚ) else 100)
        ["Sum Assured 1", "Sum Assured 2"] ["Sum Assured"] =
      some ⟨some "2", 85 / 100, "fuzzy (score: 100)"⟩ ∧
    (∃ pre c post,
      candidateList (fun _ l => if l = "sum assured 1" then (90 : ℚ) else 100)
          ["Sum Assured"] ["Sum Assured 1", "Sum Assured 2"] = pre ++ c :: post ∧
      fuzzy_search (fun _ l => if l = "sum assured 1" then (90 : ℚ) else 100)
          ["Sum Assured 1", "Sum Assured 2"] ["Sum Assured"] =
        some ⟨some c.1, c.2.1, "fuzzy (score: " ++ toString c.2.2 ++ ")"⟩ ∧
      (∀ d ∈ pre, d.2.1 < c.2.1) ∧ ∀ d ∈ post, d.2.1 ≤ c.2.1) :=
  ⟨by with_unfolding_all decide, by with_unfolding_all decide,
   C4_global_arbitration _ _ _ (by with_unfolding_all decide)⟩

/-- C5: the fuzzy scan never returns a candidate whose recorded similarity
score is below the fixed threshold 85; a keyword and line pair whose
similarity is below 85 leaves the scan state unchanged and so contributes
no candidate, and a line that is empty after stripping is skipped
entirely. -/
theorem C5_similarity_threshold (sim : String → String → ℚ)
    (lines keywords : List String) :
    (∀ r, fuzzy_search sim lines keywords = some r →
      ∃ s : ℚ, 85 ≤ s ∧ r.method = "fuzzy (score: " ++ toString s ++ ")") ∧
    (∀ (line : String) (st : FuzzyState) (kw : String),
      sim kw.toLower line.toLower < 85 → fuzzyKeywordStep sim line st kw = st) ∧
    (∀ (st : FuzzyState) (line : String), line.trim = "" →
      fuzzyLineStep sim keywords st line = st) := by
  refine ⟨?_, ?_, ?_⟩
  · intro r hr
    rcases finalState_cases sim lines keywords with hinit | ⟨c, hmem, hfs⟩
    · rw [fuzzy_search_of_initState sim lines keywords hinit] at hr
      cases hr
    · have hfacts := candidateList_facts sim keywords lines c hmem
      rw [fuzzy_search_of_finalState sim lines keywords c hfs hfacts.1] at hr
      injection hr with hr2
      subst hr2
      exact ⟨c.2.2, hfacts.2.1, rfl⟩
  · intro line st kw h
    have hs : ¬ 85 ≤ sim kw.toLower line.toLower := not_le.mpr h
    simp [fuzzyKeywordStep, hs]
  · intro st line h
    unfold fuzzyLineStep
    rw [if_pos h]

/-- Witness for C5: a successful fuzzy run records a score of at least 85,
a pair with similarity 50 leaves the state unchanged, and a whitespace only
line leaves the state unchanged. -/
theorem C5_similarity_threshold_witness :
    (∃ s : ℚ, 85 ≤ s ∧
      (⟨some "100", 85 / 100, "fuzzy (score: 100)"⟩ : ExtractionResult).method =
        "fuzzy (score: " ++ toString s ++ ")") ∧
    fuzzyKeywordStep (fun _ _ => 50) "Premium 100" initState "Premium" = initState ∧
    fuzzyLineStep (fun _ _ => (100 : ℚ)) ["Premium"] initState "   " = initState :=
  ⟨(C5_similarity_threshold (fun _ _ => 100) ["Premium 100"] ["Premium"]).1 _
      (by with_unfolding_all decide),
   (C5_similarity_threshold (fun _ _ => 50) ["Premium 100"] ["Premium"]).2.1
      "Premium 100" initState "Premium" (by norm_num),
   (C5_similarity_threshold (fun _ _ => 100) ["Premium 100"] ["Premium"]).2.2
      initState "   " (by with_unfolding_all decide)⟩

/-- C6: for an accepted keyword and line pair, the candidate the pair can
contribute is exactly the last token of the valid numeric tokens of that
line, and a line without valid numeric token contributes nothing; the
token pattern tolerates a currency marker and thousands separators and
tokens without a digit are discarded, as the closed evaluations show. -/
theorem C6_last_numeric_token (sim : String → String → ℚ) (line : String)
    (st : FuzzyState) (kw : String)
    (hacc : 85 ≤ sim kw.toLower line.toLower) :
    (fuzzyKeywordStep sim line st kw =
      match (validValues line).getLast? with
      | none => st
      | some v =>
        if st.best_score <
            ConfidenceScorer.calculate "fuzzy" (sim kw.toLower line.toLower) then
          ⟨some v, ConfidenceScorer.calculate "fuzzy" (sim kw.toLower line.toLower),
            sim kw.toLower line.toLower⟩
        else st) ∧
    validValues "Total Premium Payable Rs. 25,000.00 only" = ["25,000.00"] ∧
    validValues "Rs. 1200 then 2,500 follow" = ["1200", "2,500"] ∧
    validValues "a,,b and no digits" = [] := by
  refine ⟨?_, by with_unfolding_all decide, by with_unfolding_all decide,
    by with_unfolding_all decide⟩
  rw [fuzzyKeywordStep_eq_pick]
  cases hv : (validValues line).getLast? with
  | none => simp [pairCandidate, hacc, hv]
  | some v => simp [pairCandidate, pick, hacc, hv]

/-- Witness for C6: on an accepted pair whose line carries the tokens 1200
and 2,500, the recorded candidate is the last token 2,500. -/
theorem C6_last_numeric_token_witness :
    (85 : ℚ) ≤ (fun (_ _ : String) => (100 : ℚ)) "premium" "rs. 1200 then 2,500 follow" ∧
    fuzzyKeywordStep (fun _ _ => 100) "Rs. 1200 then 2,500 follow" initState "Premium" =
      ⟨some "2,500", 85 / 100, 100⟩ := by
  constructor
  · norm_num
  · have h := (C6_last_numeric_token (fun _ _ => 100) "Rs. 1200 then 2,500 follow"
      initState "Premium" (by norm_num)).1
    rw [h]
    with_unfolding_all decide

/-- C9: every result of the fuzzy path carries the confidence obtained from
the similarity score recorded in its method tag through the fuzzy branch of
the confidence model; for a similarity ratio bounded by 100 this confidence
lies between 0.72 and 0.85 and is strictly below the regex constant, so a
regex result always carries strictly higher confidence than any fuzzy
result. -/
theorem C9_fuzzy_confidence_bounds (sim : String → String → ℚ)
    (lines keywords : List String) (r : ExtractionResult)
    (hsim : ∀ a b : String, sim a b ≤ 100)
    (h : fuzzy_search sim lines keywords = some r) :
    ∃ s : ℚ, r.method = "fuzzy (score: " ++ toString s ++ ")" ∧
      r.confidence = ConfidenceScorer.calculate "fuzzy" s ∧
      72 / 100 ≤ r.confidence ∧ r.confidence ≤ 85 / 100 ∧
      ∀ q : ℚ, r.confidence < ConfidenceScorer.calculate "regex" q := by
  rcases finalState_cases sim lines keywords with hinit | ⟨c, hmem, hfs⟩
  · rw [fuzzy_search_of_initState sim lines keywords hinit] at h
    cases h
  · obtain ⟨hc1, hc85, hceq, ⟨l2, k2, hsimeq⟩, hc72⟩ :=
      candidateList_facts sim keywords lines c hmem
    rw [fuzzy_search_of_finalState sim lines keywords c hfs hc1] at h
    injection h with h2
    subst h2
    have hb100 : c.2.2 ≤ 100 := by rw [hsimeq]; exact hsim _ _
    have hle : c.2.1 ≤ 85 / 100 := by
      rw [hceq, ← calculate_fuzzy_100]
      exact ConfidenceScorer.calculate_fuzzy_mono hb100
    refine ⟨c.2.2, rfl, hceq, hc72, hle, ?_⟩
    intro q
    have hreg : ConfidenceScorer.calculate "regex" q = 95 / 100 := rfl
    rw [hreg]
    linarith

/-- Witness for C9 on a concrete run whose fuzzy result has confidence
0.85 and recorded score 100, under the constant similarity ratio 100. -/
theorem C9_fuzzy_confidence_bounds_witness :
    ∃ s : ℚ,
      (⟨some "100", 85 / 100, "fuzzy (score: 100)"⟩ : ExtractionResult).method =
        "fuzzy (score: " ++ toString s ++ ")" ∧
      (⟨some "100", 85 / 100, "fuzzy (score: 100)"⟩ : ExtractionResult).confidence =
        ConfidenceScorer.calculate "fuzzy" s ∧
      72 / 100 ≤ (⟨some "100", 85 / 100,
        "fuzzy (score: 100)"⟩ : ExtractionResult).confidence ∧
      (⟨some "100", 85 / 100, "fuzzy (score: 100)"⟩ : ExtractionResult).confidence ≤
        85 / 100 ∧
      ∀ q : ℚ,
        (⟨some "100", 85 / 100, "fuzzy (score: 100)"⟩ : ExtractionResult).confidence <
          ConfidenceScorer.calculate "regex" q :=
  C9_fuzzy_confidence_bounds (fun _ _ => 100) ["Premium 100"] ["Premium"] _
    (fun _ _ => by norm_num) (by with_unfolding_all decide)

end Claims
